import Mathlib

/-!
Verification of the natural-language specification of the
BakeryManagementSystem repository (src/BakeryManagementsystem.py)
against a shallow embedding of its code.

The program keeps an in-memory pandas DataFrame `orders` with columns
Order ID / Customer Name / Order / Quantity / Order Date, a counter
`next_order_id`, a primary CSV file, and a backup CSV file.  We embed:
  * the table as a `List Order` (DataFrame rows in order),
  * the numeric cells that can become NaN (`Order ID`, `next_order_id`)
    as `PyNum` (an integer or NaN, with pandas comparison semantics),
  * the two files as `Option (List Order)` (`none` = file does not exist);
    CSV round-trips of the validated record fields are modelled as the
    identity on the record list,
  * each method of the class as a Lean function on `State`.
Strings are treated at the level of Unicode code points; the digit
classes of Python's `str.isdigit` and `re`'s `\d` are modelled as the
ASCII digits (faithful for all ASCII inputs).
-/

namespace Bakery

/-- A pandas numeric cell: an integer, or NaN (as produced e.g. by
`Series.max()` on an empty series, and propagated by `+ 1`). -/
inductive PyNum where
  | num (n : Nat)
  | nan
deriving DecidableEq, Repr

/-- `x + 1` on a pandas numeric value: NaN propagates. -/
def pyAdd1 : PyNum → PyNum
  | .num n => .num (n + 1)
  | .nan => .nan

/-- pandas elementwise `==`: NaN is unequal to everything, including NaN. -/
def pyEq : PyNum → PyNum → Bool
  | .num a, .num b => a == b
  | _, _ => false

def isNum : PyNum → Bool
  | .num _ => true
  | .nan => false

/-- The non-NaN entries of a column. -/
def numsOf (l : List PyNum) : List Nat :=
  l.filterMap fun v => match v with | .num n => some n | .nan => none

/-- pandas `Series.max()` with the default `skipna=True`: NaN entries are
ignored; the maximum of an empty (or all-NaN) series is NaN. -/
def pyMax (l : List PyNum) : PyNum :=
  match numsOf l with
  | [] => .nan
  | x :: xs => .num (xs.foldl Nat.max x)

/-- One row of the `orders` DataFrame
(`Order ID, Customer Name, Order, Quantity, Order Date`). -/
structure Order where
  orderId : PyNum
  customerName : String
  orderDesc : String
  quantity : Nat
  orderDate : String
deriving DecidableEq, Repr

/-- The whole world the class manipulates: the in-memory table, the
next-ID counter, the primary CSV file and the backup CSV file. -/
structure State where
  orders : List Order
  next_order_id : PyNum
  file : Option (List Order)
  backup : Option (List Order)
deriving DecidableEq, Repr

/-- Outcomes the methods report to the user (via prints in the source). -/
inductive Err where
  | invalidQuantity
  | invalidDate
  | notFound
  | noBackup
deriving DecidableEq, Repr

/-- Result of a fallible operation. -/
inductive Res (α : Type) where
  | ok (a : α)
  | err (e : Err)
deriving DecidableEq, Repr

/-! ### Validation (`validate_quantity`, `validate_date`) -/

/-- ASCII decimal digit (model of Python's digit classes on ASCII input). -/
def isDig (c : Char) : Bool := 48 ≤ c.toNat && c.toNat ≤ 57

/-- Python `str.isdigit()`: non-empty and all digits. -/
def isdigit (s : String) : Bool := !s.isEmpty && s.toList.all isDig

/-- Python `int(...)` on an all-digit string: base-10 value. -/
def natOfDigits (cs : List Char) : Nat :=
  cs.foldl (fun a c => 10 * a + (c.toNat - 48)) 0

/-- `validate_quantity`: `quantity.isdigit() and int(quantity) > 0`. -/
def validate_quantity (quantity : String) : Bool :=
  isdigit quantity && natOfDigits quantity.toList > 0

/-- The `%m` token of CPython `_strptime`: regex `1[0-2]|0[1-9]|[1-9]`,
matched against a complete dash-free segment of the input. -/
def monthTok : List Char → Bool
  | [a, c] => (a.toNat == 49 && (48 ≤ c.toNat && c.toNat ≤ 50)) ||
              (a.toNat == 48 && (49 ≤ c.toNat && c.toNat ≤ 57))
  | [c] => 49 ≤ c.toNat && c.toNat ≤ 57
  | _ => false

/-- The `%d` token of CPython `_strptime`: regex `3[01]|[12]\d|0[1-9]|[1-9]`,
matched against a complete dash-free segment of the input. -/
def dayTok : List Char → Bool
  | [a, c] => (a.toNat == 51 && (48 ≤ c.toNat && c.toNat ≤ 49)) ||
              ((49 ≤ a.toNat && a.toNat ≤ 50) && (48 ≤ c.toNat && c.toNat ≤ 57)) ||
              (a.toNat == 48 && (49 ≤ c.toNat && c.toNat ≤ 57))
  | [c] => 49 ≤ c.toNat && c.toNat ≤ 57
  | _ => false

/-- The `%Y` token of CPython `_strptime`: regex `\d\d\d\d`
(exactly four digits). -/
def yearTok (cs : List Char) : Bool := cs.length == 4 && cs.all isDig

/-- Gregorian leap year, as implemented by `datetime`. -/
def isLeap (y : Nat) : Bool := (y % 4 == 0 && y % 100 != 0) || y % 400 == 0

/-- Days in a month, as checked by the `datetime` constructor. -/
def daysInMonth (y m : Nat) : Nat :=
  if m == 2 then (if isLeap y then 29 else 28)
  else if m == 4 || m == 6 || m == 9 || m == 11 then 30
  else 31

/-- The range checks of the `datetime` constructor (MINYEAR = 1,
MAXYEAR = 9999; month 1..12; day 1..days-in-month). -/
def validDate (y m d : Nat) : Bool :=
  1 ≤ y && y ≤ 9999 && 1 ≤ m && m ≤ 12 && 1 ≤ d && d ≤ daysInMonth y m

/-- Split a character list at every dash (the `List Char` counterpart of
`splitOn "-"`): always returns one segment more than there are dashes. -/
def splitDash : List Char → List (List Char)
  | [] => [[]]
  | c :: rest =>
      if c == '-' then [] :: splitDash rest
      else
        match splitDash rest with
        | [] => [[c]]
        | seg :: segs => (c :: seg) :: segs

/-- `validate_date`: `datetime.strptime(date_str, "%Y-%m-%d")` succeeds.
CPython `_strptime` compiles the format into the anchored regex
`(?P<Y>\d\d\d\d)-(?P<m>1[0-2]|0[1-9]|[1-9])-(?P<d>3[01]|[12]\d|0[1-9]|[1-9])`
which must consume the whole input ("unconverted data remains" otherwise);
since none of the tokens can match a dash, the input matches iff it splits
at its dashes into exactly three segments matched by the three tokens.
`datetime` then validates the numeric values as a real calendar date. -/
def validate_date (date_str : String) : Bool :=
  match splitDash date_str.toList with
  | [ys, ms, ds] =>
      yearTok ys && monthTok ms && dayTok ds &&
      validDate (natOfDigits ys) (natOfDigits ms) (natOfDigits ds)
  | _ => false

/-! ### The operations -/

/-- `__init__(filename)`: load the table from the primary file when it
exists (next id = max + 1, or 1 on an empty table), else start empty with
next id 1.  The two files on disk are whatever the world already holds. -/
def initStore (file backup : Option (List Order)) : State :=
  match file with
  | some t =>
      { orders := t
        next_order_id := if t.isEmpty then .num 1
                         else pyAdd1 (pyMax (t.map (·.orderId)))
        file := some t
        backup := backup }
  | none =>
      { orders := [], next_order_id := .num 1, file := none, backup := backup }

/-- `add_order`: validate quantity then date (abort leaves everything
unchanged); on success append the record with id `next_order_id`,
rewrite the primary file (`save_orders`), report the assigned id, and
increment the counter. -/
def add_order (s : State) (name order quantity order_date : String) :
    State × Res PyNum :=
  if !validate_quantity quantity then (s, .err .invalidQuantity)
  else if !validate_date order_date then (s, .err .invalidDate)
  else
    let newOrder : Order :=
      { orderId := s.next_order_id
        customerName := name
        orderDesc := order
        quantity := natOfDigits quantity.toList
        orderDate := order_date }
    let orders := s.orders ++ [newOrder]
    ({ s with orders := orders
              file := some orders
              next_order_id := pyAdd1 s.next_order_id },
     .ok s.next_order_id)

/-- Python truthiness of an optional-string parameter (`if name:`):
`None` and the empty string are falsy. -/
def provided : Option String → Bool
  | none => false
  | some v => !v.isEmpty

def getStr (v : Option String) : String := v.getD ""

/-- Replace the element at index `i` (the DataFrame `.at[idx[0], col]`
in-place write). -/
def modifyIdx (l : List Order) (i : Nat) (f : Order → Order) : List Order :=
  match l, i with
  | [], _ => []
  | x :: xs, 0 => f x :: xs
  | x :: xs, i + 1 => x :: modifyIdx xs i f

/-- The two in-place writes `update_order` performs unconditionally
before any validation: `Customer Name` and `Order` at row `i`, each when
its argument is truthy. -/
def nameDescApplied (l : List Order) (i : Nat) (name order : Option String) :
    List Order :=
  let t1 := if provided name then
              modifyIdx l i (fun o => { o with customerName := getStr name })
            else l
  if provided order then
    modifyIdx t1 i (fun o => { o with orderDesc := getStr order })
  else t1

/-- The in-place `Quantity` write at row `i`, when the argument is truthy. -/
def qtyApplied (l : List Order) (i : Nat) (quantity : Option String) :
    List Order :=
  if provided quantity then
    modifyIdx l i (fun o => { o with quantity := natOfDigits (getStr quantity).toList })
  else l

/-- The in-place `Order Date` write at row `i`, when the argument is truthy. -/
def dateApplied (l : List Order) (i : Nat) (order_date : Option String) :
    List Order :=
  if provided order_date then
    modifyIdx l i (fun o => { o with orderDate := getStr order_date })
  else l

/-- `update_order`: find the first row with the given id (`idx[0]`);
apply name and description unconditionally, then validate-and-apply
quantity, then validate-and-apply date; a failed validation returns at
once, leaving the already-applied in-place field writes in memory and
the primary file untouched; on full success rewrite the primary file. -/
def update_order (s : State) (order_id : Nat)
    (name order quantity order_date : Option String) : State × Res Unit :=
  match s.orders.findIdx? (fun o => pyEq o.orderId (.num order_id)) with
  | none => (s, .err .notFound)
  | some i =>
    let t2 := nameDescApplied s.orders i name order
    if provided quantity && !validate_quantity (getStr quantity) then
      ({ s with orders := t2 }, .err .invalidQuantity)
    else
      let t3 := qtyApplied t2 i quantity
      if provided order_date && !validate_date (getStr order_date) then
        ({ s with orders := t3 }, .err .invalidDate)
      else
        let t4 := dateApplied t3 i order_date
        ({ s with orders := t4, file := some t4 }, .ok ())

/-- `delete_order`: drop every row whose `Order ID` equals the argument
(under pandas `==`), rewrite the primary file; `NotFound` when no row
matches.  When no row matches, dropping nothing is the identity, so the
resulting table is always the filtered table. -/
def delete_order (s : State) (order_id : Nat) : State × Res Unit :=
  if s.orders.any (fun o => pyEq o.orderId (.num order_id)) then
    let orders := s.orders.filter (fun o => !pyEq o.orderId (.num order_id))
    ({ s with orders := orders, file := some orders }, .ok ())
  else
    (s, .err .notFound)

/-- `lookup_order`: the rows whose id matches (printed when non-empty;
"not found" on the empty selection).  Pure read. -/
def lookup_order (s : State) (order_id : Nat) : List Order :=
  s.orders.filter (fun o => pyEq o.orderId (.num order_id))

/-! ### filter_orders

`filtered_orders["Customer Name"].str.contains(customer_name, case=False,
na=False)` performs a case-insensitive *regular-expression* search
(`regex=True` is the pandas default).  We embed the fragment of `re`
needed here: patterns made of literal characters and the metacharacter
`.` (any character); other metacharacters are outside the model, and the
theorems about `filter_orders` restrict the pattern accordingly. -/

/-- A regex token of the modelled fragment. -/
inductive RTok where
  | lit (c : Char)
  | dot
deriving DecidableEq, Repr

/-- Pattern text to tokens: `.` is the any-character metacharacter,
every other character of the modelled fragment is a literal. -/
def parsePat (p : String) : List RTok :=
  p.toList.map fun c => if c == '.' then .dot else .lit c

/-- One token against one character, under `re.IGNORECASE`. -/
def tokCharOk : RTok → Char → Bool
  | .lit c, x => c.toLower == x.toLower
  | .dot, _ => true

/-- Does the token list match a prefix of the character list? -/
def tokMatch : List RTok → List Char → Bool
  | [], _ => true
  | _ :: _, [] => false
  | t :: ts, c :: cs => tokCharOk t c && tokMatch ts cs

/-- `re.search`: does the token list match at some position? -/
def rsearch (p : List RTok) : List Char → Bool
  | [] => tokMatch p []
  | c :: cs => tokMatch p (c :: cs) || rsearch p cs

/-- Lexicographic (code-point) order on strings as character lists:
Python's `<=` on `str`, used elementwise by the pandas comparisons
`["Order Date"] >= start_date` and `<= end_date`. -/
def lexLe : List Char → List Char → Bool
  | [], _ => true
  | _ :: _, [] => false
  | a :: as, b :: bs => if a == b then lexLe as bs else decide (a.toNat < b.toNat)

/-- `filter_orders`: start from the whole table and narrow it by each
provided argument in turn (blank/absent arguments are falsy and skipped);
the result is the remaining row sequence (printed, or "No orders found"
when empty). -/
def filter_orders (s : State)
    (customer_name start_date end_date : Option String) : List Order :=
  let f0 := s.orders
  let f1 := match customer_name with
            | none => f0
            | some p => if p.isEmpty then f0
                        else f0.filter (fun o => rsearch (parsePat p) o.customerName.toList)
  let f2 := match start_date with
            | none => f1
            | some sd => if sd.isEmpty then f1
                         else f1.filter (fun o => lexLe sd.toList o.orderDate.toList)
  match end_date with
  | none => f2
  | some ed => if ed.isEmpty then f2
               else f2.filter (fun o => lexLe o.orderDate.toList ed.toList)

/-! ### backup / restore -/

/-- `backup_orders`: write the current table to the backup file. -/
def backup_orders (s : State) : State := { s with backup := some s.orders }

/-- `restore_orders`: when the backup file exists, replace the in-memory
table by its contents, rewrite the primary file, and recompute the
counter as `max() + 1` — with **no** empty-table guard, so restoring an
empty backup sets the counter to NaN. -/
def restore_orders (s : State) : State × Res Unit :=
  match s.backup with
  | none => (s, .err .noBackup)
  | some t =>
      ({ s with orders := t
                file := some t
                next_order_id := pyAdd1 (pyMax (t.map (·.orderId))) },
       .ok ())

/-! ### order_summary

`self.orders["Order"].mode()[0]`: pandas `Series.mode()` returns the
most frequent values **in sorted (ascending) order**, and `[0]` takes
the first, i.e. the smallest tied value. -/

def countOcc (l : List String) (v : String) : Nat :=
  (l.filter fun w => w == v).length

/-- Python `<=` on strings: lexicographic code-point order. -/
def strLe (a b : String) : Bool := lexLe a.toList b.toList

/-- Insertion into a ≤-sorted list (ascending, code-point order). -/
def insertLe (x : String) : List String → List String
  | [] => [x]
  | y :: ys => if strLe x y then x :: y :: ys else y :: insertLe x ys

/-- Ascending sort (model of the sorted order `Series.mode()` returns). -/
def sortLe : List String → List String
  | [] => []
  | x :: xs => insertLe x (sortLe xs)

/-- `Series.mode()`: the values of maximal multiplicity, ascending. -/
def modeSorted (l : List String) : List String :=
  let uniq := l.dedup
  let mx := (uniq.map (countOcc l)).foldl Nat.max 0
  sortLe (uniq.filter fun v => countOcc l v == mx)

/-- `order_summary`: (total orders, total quantity, most popular order
description — "None" on an empty table, else `mode()[0]`). -/
def order_summary (s : State) : Nat × Nat × String :=
  (s.orders.length,
   (s.orders.map (·.quantity)).foldl (· + ·) 0,
   if s.orders.length > 0 then (modeSorted (s.orders.map (·.orderDesc))).headD ""
   else "None")

/-! ### Operation sequences

For the temporal claims we close the CRUD operations (the ones reachable
from the menu that mutate through the normal add/update/delete path)
under sequencing. -/

inductive Op where
  | addOp (name order quantity order_date : String)
  | updateOp (id : Nat) (name order quantity order_date : Option String)
  | deleteOp (id : Nat)

def step (s : State) : Op → State
  | .addOp n o q d => (add_order s n o q d).1
  | .updateOp i n o q d => (update_order s i n o q d).1
  | .deleteOp i => (delete_order s i).1

def run (s : State) (ops : List Op) : State := ops.foldl step s

/-- Observable ID events of one operation: the id a successful add
assigns, and the ids a delete removes from the table. -/
inductive Event where
  | assigned (id : PyNum)
  | removed (id : PyNum)
deriving DecidableEq, Repr

def eventsOf (s : State) : Op → List Event
  | .addOp n o q d =>
      match (add_order s n o q d).2 with
      | .ok id => [.assigned id]
      | .err _ => []
  | .updateOp _ _ _ _ _ => []
  | .deleteOp i =>
      (s.orders.filter (fun o => pyEq o.orderId (.num i))).map
        (fun o => .removed o.orderId)

def events (s : State) : List Op → List Event
  | [] => []
  | op :: ops => eventsOf s op ++ events (step s op) ops

/-- The id column of the in-memory table. -/
def idsOf (s : State) : List PyNum := s.orders.map (·.orderId)

/-- All ids in the column are integers below the bound. -/
def goodIds (n : Nat) (l : List PyNum) : Bool :=
  l.all fun v => match v with | .num m => m < n | .nan => false

/-- The store invariant the sequencing claims assume: the counter is an
integer and strictly bounds every id in the table. -/
def storeInvB (s : State) : Bool :=
  match s.next_order_id with
  | .num n => goodIds n (idsOf s)
  | .nan => false

/-- The counter's integer value (0 for NaN; under `storeInvB` it is
always an integer). -/
def nextVal (s : State) : Nat :=
  match s.next_order_id with
  | .num n => n
  | .nan => 0

/-- A one-record store (id 1, name "A", quantity 1), built by the code's
own `add_order`, used as the concrete C2 input. -/
def c2state : State :=
  (add_order (initStore none none) "A" "Bread" "1" "2024-01-01").1

/-- Modelled from the amended claim's words: the date strings accepted by
`strptime("%Y-%m-%d")` — exactly four year digits, one or two month
digits, one or two day digits, dash separated, forming a real calendar
date of the `datetime` range. -/
def strptimeShape (s : String) : Bool :=
  match splitDash s.toList with
  | [ys, ms, ds] =>
      ys.length == 4 && ys.all isDig &&
      (1 ≤ ms.length && ms.length ≤ 2) && ms.all isDig &&
      (1 ≤ ds.length && ds.length ≤ 2) && ds.all isDig &&
      validDate (natOfDigits ys) (natOfDigits ms) (natOfDigits ds)
  | _ => false

/-- Two-record store whose descriptions are "B" then "A" (a frequency
tie), built by the code's own `add_order`: the C5 concrete input. -/
def c5state : State :=
  (add_order (add_order (initStore none none) "x" "B" "1" "2024-01-01").1
    "y" "A" "1" "2024-01-02").1

/-- Modelled from the claim's words: the most frequent description with
ties broken in favour of the value encountered first in table order. -/
def firstEncounterMode (l : List String) : Option String :=
  (l.dedup.filter
    (fun v => countOcc l v == (l.dedup.map (countOcc l)).foldl Nat.max 0)).head?

/-- Modelled from the claim's words: `pat` occurs in `s` as a
case-insensitive substring. -/
def substrCI (pat s : String) : Bool :=
  (s.toList.map Char.toLower).tails.any
    (fun t => (pat.toList.map Char.toLower).isPrefixOf t)

/-- The `re` metacharacters: a pattern avoiding all of them is matched
by `re.search` as a literal. -/
def reMeta : List Char :=
  ['.', '^', '$', '*', '+', '?', '\\', '[', ']', '(', ')', '\x7b', '\x7d', '|']

def noMeta (p : String) : Bool := p.toList.all fun c => !reMeta.contains c

/-- Modelled from the claim's words: the records satisfying the
conjunction of the provided criteria — case-insensitive substring on the
customer name, inclusive lexicographic bounds on the date. -/
def specFilter (l : List Order)
    (customer_name start_date end_date : Option String) : List Order :=
  l.filter fun o =>
    (match customer_name with
     | none => true
     | some p => substrCI p o.customerName) &&
    (match start_date with
     | none => true
     | some d => strLe d o.orderDate) &&
    (match end_date with
     | none => true
     | some d => strLe o.orderDate d)

/-- One-record store with customer name "xyz": the C6 concrete input. -/
def c6state : State :=
  (add_order (initStore none none) "xyz" "Bread" "1" "2024-01-01").1

/-- Three-record store with names Alice, Natalia, Bob: the spec's own
filter example. -/
def c6wstate : State :=
  (add_order (add_order (add_order (initStore none none)
      "Alice" "Bread" "1" "2024-01-01").1
      "Natalia" "Cake" "1" "2024-01-02").1
      "Bob" "Pie" "1" "2024-01-03").1

/-- The integer ids of the table rows. -/
def idNats (l : List Order) : List Nat :=
  l.filterMap fun o => match o.orderId with | .num n => some n | .nan => none

/-- "Deleting every record": calling `delete_order` on each id present in
the table, in table order. -/
def deleteAll (s : State) : State :=
  (idNats s.orders).foldl (fun st id => (delete_order st id).1) s

/-- C3 counterexample input: two orders (ids 1 and 2) added to a fresh
store. -/
def c3two : State :=
  (add_order (add_order (initStore none none) "A" "a" "1" "2024-01-01").1
    "B" "b" "1" "2024-01-02").1

/-- C3 counterexample input after deleting id 2 (the largest id), which
also persists the remaining table. -/
def c3afterDelete : State := (delete_order c3two 2).1

/-- C3 counterexample input after re-initializing from the persisted
file, as `__init__` does. -/
def c3reloaded : State := initStore c3afterDelete.file c3afterDelete.backup

/-! ## Theorems -/

/-- C1: in every reachable store state the OrderID values are pairwise
distinct and the next-ID counter strictly exceeds the maximum present
OrderID (`max + 1` on load or restore, `1` on an empty table) — this is
what the spec states, and the code breaks it: `restore_orders` recomputes
the counter as `max() + 1` with no empty-table guard (unlike `__init__`,
which has one), so backing up an empty table and restoring it sets the
counter to NaN instead of 1.  The claim is right about the intent and the
code is wrong on this input. -/
theorem restore_empty_backup_counter_nan :
    (restore_orders (backup_orders (initStore none none))).1.next_order_id
      = PyNum.nan ∧
    PyNum.nan ≠ PyNum.num 1 :=
  ⟨rfl, by decide⟩

/-- C7: a quantity string passes validation iff it is all digits and its
integer value is positive; any other quantity makes `add_order` fail with
`InvalidQuantity`, leaving the whole state (table, files, counter)
unchanged; a passing quantity never produces `InvalidQuantity`. -/
theorem add_order_quantity_validation
    (s : State) (name order quantity order_date : String) :
    (validate_quantity quantity = true ↔
      (isdigit quantity = true ∧ 0 < natOfDigits quantity.toList)) ∧
    (validate_quantity quantity = false →
      add_order s name order quantity order_date = (s, .err .invalidQuantity)) ∧
    (validate_quantity quantity = true →
      (add_order s name order quantity order_date).2 ≠ .err .invalidQuantity) := by
  refine ⟨?_, ?_, ?_⟩
  · simp [validate_quantity]
  · intro h
    simp [add_order, h]
  · intro h
    by_cases hd : validate_date order_date
    · simp [add_order, h, hd]
    · simp only [add_order, h, hd]
      simp
/-- Witness for C7 at the spec's own example `add("A","Bread","0","2024-01-01")`. -/
theorem add_order_quantity_validation_witness :
    validate_quantity "0" = false ∧
    add_order (initStore none none) "A" "Bread" "0" "2024-01-01"
      = (initStore none none, .err .invalidQuantity) :=
  ⟨by decide,
   (add_order_quantity_validation (initStore none none) "A" "Bread" "0"
      "2024-01-01").2.1 (by decide)⟩

/-- C10: `update_order` on a present id with all four optional fields
absent succeeds: no record field changes, the counter is unchanged, and
the full (unchanged) table is rewritten to the persisted file — the same
success path (persist, log, notify) as an update that changes fields. -/
theorem update_order_all_none (s : State) (order_id i : Nat)
    (hfind : s.orders.findIdx? (fun o => pyEq o.orderId (.num order_id))
      = some i) :
    update_order s order_id none none none none
      = ({ s with file := some s.orders }, .ok ()) := by
  simp [update_order, hfind, nameDescApplied, qtyApplied, dateApplied, provided]

/-- Witness for C10: a store with the single order Alice/Croissant/3,
updated at its id 1 with no fields provided. -/
theorem update_order_all_none_witness :
    update_order
        (add_order (initStore none none) "Alice" "Croissant" "3" "2024-05-01").1
        1 none none none none
      = ({ (add_order (initStore none none) "Alice" "Croissant" "3" "2024-05-01").1
            with file := some (add_order (initStore none none) "Alice" "Croissant" "3"
              "2024-05-01").1.orders },
         .ok ()) :=
  update_order_all_none _ 1 0 (by decide)

/-- C2 counterexample: calling `update_order` on id 1 with a new name
"B" *and* the invalid quantity "0" aborts with `InvalidQuantity` and
leaves the persisted file untouched — but the in-memory table is *not*
as it was: the name write had already happened.  The claim that the
in-memory table is exactly as before, including the name field, is
false. -/
theorem update_order_invalid_quantity_mutates_name :
    (update_order c2state 1 (some "B") none (some "0") none).2
        = .err .invalidQuantity ∧
    (update_order c2state 1 (some "B") none (some "0") none).1.file
        = c2state.file ∧
    (update_order c2state 1 (some "B") none (some "0") none).1.orders
        ≠ c2state.orders ∧
    ((update_order c2state 1 (some "B") none (some "0") none).1.orders.map
        (·.customerName)) = ["B"] := by
  refine ⟨rfl, rfl, ?_, rfl⟩
  decide

/-- C2 amended: when a provided field of `update_order` fails validation
on a present id, the operation aborts with the corresponding error and
the persisted file is unchanged, but the in-memory table keeps the
in-place writes made before the failing check: name and description on
an invalid quantity; name, description and a valid provided quantity on
an invalid date.  (The failing field and everything after it are never
applied, and any error leaves the file exactly as it was.) -/
theorem update_order_validation_failure (s : State) (order_id i : Nat)
    (name order quantity order_date : Option String)
    (hfind : s.orders.findIdx? (fun o => pyEq o.orderId (.num order_id))
      = some i) :
    ((provided quantity && !validate_quantity (getStr quantity)) = true →
      update_order s order_id name order quantity order_date
        = ({ s with orders := nameDescApplied s.orders i name order },
           .err .invalidQuantity)) ∧
    ((provided quantity && !validate_quantity (getStr quantity)) = false →
     (provided order_date && !validate_date (getStr order_date)) = true →
      update_order s order_id name order quantity order_date
        = ({ s with orders :=
               qtyApplied (nameDescApplied s.orders i name order) i quantity },
           .err .invalidDate)) ∧
    (∀ e, (update_order s order_id name order quantity order_date).2 = .err e →
      (update_order s order_id name order quantity order_date).1.file
        = s.file) := by
  refine ⟨?_, ?_, ?_⟩
  · intro hq
    simp [update_order, hfind, hq]
  · intro hq hd
    simp [update_order, hfind, hq, hd]
  · intro e
    simp only [update_order, hfind]
    by_cases hq : (provided quantity && !validate_quantity (getStr quantity)) = true
    · simp [hq]
    · rw [Bool.not_eq_true] at hq
      by_cases hd : (provided order_date && !validate_date (getStr order_date)) = true
      · simp [hq, hd]
      · rw [Bool.not_eq_true] at hd
        simp [hq, hd]

/-- Witness for C2 amended at the counterexample input: the invalid
quantity aborts the update, and the resulting state carries exactly the
name write. -/
theorem update_order_validation_failure_witness :
    update_order c2state 1 (some "B") none (some "0") none
      = ({ c2state with orders := nameDescApplied c2state.orders 0 (some "B") none },
         .err .invalidQuantity) :=
  (update_order_validation_failure c2state 1 0 (some "B") none (some "0") none
      (by decide)).1 (by decide)

/-- `daysInMonth` never exceeds 31. -/
theorem daysInMonth_le_31 (y m : Nat) : daysInMonth y m ≤ 31 := by
  unfold daysInMonth
  split
  · split <;> omega
  · split <;> omega

/-- The `%m` regex accepts exactly the one- or two-digit segments whose
value lies in 1..12. -/
theorem monthTok_iff (t : List Char) :
    monthTok t = true ↔
      (1 ≤ t.length ∧ t.length ≤ 2 ∧ t.all isDig = true ∧
       1 ≤ natOfDigits t ∧ natOfDigits t ≤ 12) := by
  match t with
  | [] => simp [monthTok]
  | [c] =>
      simp only [monthTok, natOfDigits, List.foldl, List.all, isDig,
                 Bool.and_eq_true, decide_eq_true_eq, List.length_cons,
                 List.length_nil, Bool.and_true]
      omega
  | [a, c] =>
      simp only [monthTok, natOfDigits, List.foldl, List.all, isDig,
                 Bool.and_eq_true, Bool.or_eq_true, beq_iff_eq,
                 decide_eq_true_eq, List.length_cons, List.length_nil,
                 Bool.and_true]
      omega
  | a :: b :: c :: rest =>
      have h : monthTok (a :: b :: c :: rest) = false := rfl
      rw [h]
      simp only [List.length_cons, Bool.false_eq_true, false_iff, not_and]
      intro _ h2
      omega

/-- The `%d` regex accepts exactly the one- or two-digit segments whose
value lies in 1..31. -/
theorem dayTok_iff (t : List Char) :
    dayTok t = true ↔
      (1 ≤ t.length ∧ t.length ≤ 2 ∧ t.all isDig = true ∧
       1 ≤ natOfDigits t ∧ natOfDigits t ≤ 31) := by
  match t with
  | [] => simp [dayTok]
  | [c] =>
      simp only [dayTok, natOfDigits, List.foldl, List.all, isDig,
                 Bool.and_eq_true, decide_eq_true_eq, List.length_cons,
                 List.length_nil, Bool.and_true]
      omega
  | [a, c] =>
      simp only [dayTok, natOfDigits, List.foldl, List.all, isDig,
                 Bool.and_eq_true, Bool.or_eq_true, beq_iff_eq,
                 decide_eq_true_eq, List.length_cons, List.length_nil,
                 Bool.and_true]
      omega
  | a :: b :: c :: rest =>
      have h : dayTok (a :: b :: c :: rest) = false := rfl
      rw [h]
      simp only [List.length_cons, Bool.false_eq_true, false_iff, not_and]
      intro _ h2
      omega

/-- C4 counterexample: the claim says any string that is not fixed-width
zero-padded `YYYY-MM-DD` fails with `InvalidDate`; but `strptime`'s `%m`
and `%d` accept non-zero-padded fields, so the code accepts "2024-1-5"
and `add_order` succeeds on it. -/
theorem add_order_accepts_nonpadded_date :
    validate_date "2024-1-5" = true ∧
    (add_order (initStore none none) "A" "Bread" "2" "2024-1-5").2
      = .ok (.num 1) := by
  exact ⟨by decide, rfl⟩

/-- C4 amended: `add_order` accepts `dateText` iff it parses per
`strptime("%Y-%m-%d")`: a four-digit year, a one-or-two-digit month, a
one-or-two-digit day (zero padding optional), dash separated, denoting a
real calendar date; any other string makes it fail with `InvalidDate`,
leaving table, persisted file and counter unchanged. -/
theorem add_order_date_validation (s : State) (name order quantity order_date : String)
    (hq : validate_quantity quantity = true) :
    (validate_date order_date = strptimeShape order_date) ∧
    (validate_date order_date = false →
      add_order s name order quantity order_date = (s, .err .invalidDate)) ∧
    (validate_date order_date = true →
      (add_order s name order quantity order_date).2 = .ok s.next_order_id) := by
  refine ⟨?_, ?_, ?_⟩
  · unfold validate_date strptimeShape
    rcases hs : splitDash order_date.toList with _ | ⟨ys, _ | ⟨ms, _ | ⟨ds, _ | ⟨x, l⟩⟩⟩⟩
    · rfl
    · rfl
    · rfl
    · rw [Bool.eq_iff_iff]
      have h31 := daysInMonth_le_31 (natOfDigits ys) (natOfDigits ms)
      simp only [yearTok, validDate, Bool.and_eq_true, beq_iff_eq,
                 decide_eq_true_eq, monthTok_iff, dayTok_iff, and_assoc]
      constructor
      · intro h
        obtain ⟨h1, h2, h3, h4, h5, h6, h7, h8, h9, h10, h11, h12, h13, h14,
                h15, h16, h17, h18⟩ := h
        exact ⟨h1, h2, h3, h4, h5, h8, h9, h10, h13, h14, h15, h16, h17, h18⟩
      · intro h
        obtain ⟨g1, g2, g3, g4, g5, g6, g7, g8, g9, g10, g11, g12, g13, g14⟩ := h
        exact ⟨g1, g2, g3, g4, g5, g11, g12, g6, g7, g8, g13, by omega,
               g9, g10, g11, g12, g13, g14⟩
    · rfl
  · intro hd
    simp [add_order, hq, hd]
  · intro hd
    simp [add_order, hq, hd]

/-- Witness for C4 amended at the spec's own example: "2024-13-40" is
rejected and the add aborts without touching the state. -/
theorem add_order_date_validation_witness :
    validate_date "2024-13-40" = false ∧
    add_order (initStore none none) "A" "Bread" "2" "2024-13-40"
      = (initStore none none, .err .invalidDate) :=
  ⟨by decide,
   (add_order_date_validation (initStore none none) "A" "Bread" "2" "2024-13-40"
      (by decide)).2.1 (by decide)⟩

/-! Order lemmas for `lexLe` and the insertion sort modelling
`Series.mode()`'s sorted output. -/

theorem lexLe_refl (a : List Char) : lexLe a a = true := by
  induction a with
  | nil => rfl
  | cons c cs ih => simp [lexLe, ih]

theorem lexLe_total (a b : List Char) :
    lexLe a b = true ∨ lexLe b a = true := by
  induction a generalizing b with
  | nil => left; rfl
  | cons x xs ih =>
      cases b with
      | nil => right; rfl
      | cons y ys =>
          by_cases hxy : x = y
          · subst hxy
            simpa [lexLe] using ih ys
          · have hnn : x.toNat ≠ y.toNat := by
              intro h
              exact hxy (Char.ext (UInt32.ext h))
            simp [lexLe, hxy, Ne.symm hxy]
            omega

theorem lexLe_trans (a b c : List Char) (h1 : lexLe a b = true)
    (h2 : lexLe b c = true) : lexLe a c = true := by
  induction a generalizing b c with
  | nil => rfl
  | cons x xs ih =>
      cases b with
      | nil => simp [lexLe] at h1
      | cons y ys =>
          cases c with
          | nil => simp [lexLe] at h2
          | cons z zs =>
              by_cases hxy : x = y <;> by_cases hyz : y = z
              · subst hxy; subst hyz
                simp only [lexLe, if_pos rfl] at h1 h2 ⊢
                simp only [beq_self_eq_true, if_true] at h1 h2 ⊢
                exact ih ys zs h1 h2
              · subst hxy
                simp only [lexLe] at h2 ⊢
                simp only [beq_iff_eq, hyz, if_false] at h2
                simp only [beq_iff_eq, hyz, if_false]
                exact h2
              · subst hyz
                simp only [lexLe] at h1 ⊢
                simp only [beq_iff_eq, hxy, if_false] at h1
                simp only [beq_iff_eq, hxy, if_false]
                exact h1
              · simp only [lexLe, beq_iff_eq, hxy, if_false] at h1
                simp only [lexLe, beq_iff_eq, hyz, if_false] at h2
                simp only [lexLe, beq_iff_eq, decide_eq_true_eq] at h1 h2 ⊢
                by_cases hxz : x = z
                · subst hxz; omega
                · simp [hxz]; omega

theorem strLe_refl (a : String) : strLe a a = true := lexLe_refl _

theorem strLe_total (a b : String) : strLe a b = true ∨ strLe b a = true :=
  lexLe_total _ _

theorem strLe_trans (a b c : String) (h1 : strLe a b = true)
    (h2 : strLe b c = true) : strLe a c = true :=
  lexLe_trans _ _ _ h1 h2

theorem mem_insertLe (x y : String) (l : List String) :
    y ∈ insertLe x l ↔ y = x ∨ y ∈ l := by
  induction l with
  | nil => simp [insertLe]
  | cons a as ih =>
      by_cases h : strLe x a = true
      · simp only [insertLe, if_pos h, List.mem_cons]
      · simp only [insertLe, if_neg h, List.mem_cons, ih]
        tauto

theorem mem_sortLe (y : String) (l : List String) :
    y ∈ sortLe l ↔ y ∈ l := by
  induction l with
  | nil => simp [sortLe]
  | cons a as ih => simp [sortLe, mem_insertLe, ih]

theorem chain'_insertLe (x : String) (l : List String)
    (h : List.Chain' (fun a b => strLe a b = true) l) :
    List.Chain' (fun a b => strLe a b = true) (insertLe x l) := by
  induction l with
  | nil => simp [insertLe]
  | cons a as ih =>
      by_cases hle : strLe x a = true
      · rw [insertLe, if_pos hle]
        exact List.chain'_cons.mpr ⟨hle, h⟩
      · have hax : strLe a x = true := by
          rcases strLe_total x a with h1 | h1
          · exact absurd h1 hle
          · exact h1
        rw [insertLe, if_neg (by simpa using hle)]
        rcases List.chain'_cons'.1 h with ⟨hhead, htail⟩
        refine List.chain'_cons'.2 ⟨?_, ih htail⟩
        intro b hb
        cases as with
        | nil =>
            simp [insertLe] at hb
            subst hb
            exact hax
        | cons c cs =>
            by_cases hlc : strLe x c = true
            · simp [insertLe, hlc] at hb
              subst hb
              exact hax
            · simp [insertLe, hlc] at hb
              subst hb
              exact hhead c rfl

theorem chain'_sortLe (l : List String) :
    List.Chain' (fun a b => strLe a b = true) (sortLe l) := by
  induction l with
  | nil => simp [sortLe]
  | cons a as ih => exact chain'_insertLe a (sortLe as) ih

theorem chain'_head_min (l : List String)
    (hc : List.Chain' (fun a b => strLe a b = true) l)
    (x : String) (hx : l.head? = some x) :
    ∀ y ∈ l, strLe x y = true := by
  induction l generalizing x with
  | nil => intro y hy; cases hy
  | cons a as ih =>
      intro y hy
      have hxa : a = x := by simpa using hx
      subst hxa
      rcases List.mem_cons.1 hy with rfl | hy
      · exact strLe_refl _
      · rcases List.chain'_cons'.1 hc with ⟨hhead, htail⟩
        cases as with
        | nil => cases hy
        | cons b bs =>
            exact strLe_trans _ _ _ (hhead b rfl) (ih htail b rfl y hy)

theorem init_le_foldl_max (l : List Nat) (i : Nat) : i ≤ l.foldl Nat.max i := by
  induction l generalizing i with
  | nil => exact Nat.le_refl _
  | cons b bs ih => exact Nat.le_trans (Nat.le_max_left _ b) (ih _)

theorem le_foldl_max (l : List Nat) (i x : Nat) (hx : x ∈ l) :
    x ≤ l.foldl Nat.max i := by
  induction l generalizing i with
  | nil => cases hx
  | cons a as ih =>
      rcases List.mem_cons.1 hx with rfl | hx
      · exact Nat.le_trans (Nat.le_max_right i x) (init_le_foldl_max as _)
      · exact ih _ hx

theorem foldl_max_mem (l : List Nat) (i : Nat) :
    l.foldl Nat.max i = i ∨ l.foldl Nat.max i ∈ l := by
  induction l generalizing i with
  | nil => left; rfl
  | cons a as ih =>
      rcases ih (Nat.max i a) with h | h
      · rw [List.foldl_cons, h]
        have hm : Nat.max i a = i ∨ Nat.max i a = a := by
          rcases Nat.le_total i a with hle | hle
          · right; exact Nat.max_eq_right hle
          · left; exact Nat.max_eq_left hle
        rcases hm with hm | hm
        · left; exact hm
        · right; rw [hm]; exact List.mem_cons_self _ _
      · right
        rw [List.foldl_cons]
        exact List.mem_cons_of_mem _ h

/-- The head of `Series.mode()`'s sorted output is a most frequent value
of the input and the `strLe`-least among the tied most frequent values. -/
theorem modeSorted_spec (l : List String) (hne : l ≠ []) :
    ∃ p t, modeSorted l = p :: t ∧ p ∈ l ∧
      (∀ v ∈ l, countOcc l v ≤ countOcc l p) ∧
      (∀ v ∈ l, countOcc l v = countOcc l p → strLe p v = true) := by
  have hms : modeSorted l
      = sortLe (l.dedup.filter
          (fun v => countOcc l v == (l.dedup.map (countOcc l)).foldl Nat.max 0)) :=
    rfl
  obtain ⟨d0, hd0⟩ := List.exists_mem_of_ne_nil l hne
  have hd0u : d0 ∈ l.dedup := List.mem_dedup.2 hd0
  have hc1 : 1 ≤ countOcc l d0 := by
    have hmem : d0 ∈ l.filter (fun w => w == d0) :=
      List.mem_filter.2 ⟨hd0, by simp⟩
    have hlen := List.length_pos.2 (List.ne_nil_of_mem hmem)
    simpa [countOcc] using hlen
  have hle0 : countOcc l d0 ≤ (l.dedup.map (countOcc l)).foldl Nat.max 0 :=
    le_foldl_max _ _ _ (List.mem_map_of_mem _ hd0u)
  have hmx_mem : (l.dedup.map (countOcc l)).foldl Nat.max 0
      ∈ l.dedup.map (countOcc l) := by
    rcases foldl_max_mem (l.dedup.map (countOcc l)) 0 with h | h
    · omega
    · exact h
  obtain ⟨p0, hp0u, hp0c⟩ := List.mem_map.1 hmx_mem
  have hp0cands : p0 ∈ l.dedup.filter
      (fun v => countOcc l v == (l.dedup.map (countOcc l)).foldl Nat.max 0) :=
    List.mem_filter.2 ⟨hp0u, by simp [hp0c]⟩
  have hsne : sortLe (l.dedup.filter
      (fun v => countOcc l v == (l.dedup.map (countOcc l)).foldl Nat.max 0)) ≠ [] := by
    intro h
    have hmem := (mem_sortLe p0 _).2 hp0cands
    rw [h] at hmem
    cases hmem
  obtain ⟨p, t, hpt⟩ := List.exists_cons_of_ne_nil hsne
  have hp : p ∈ l.dedup.filter
      (fun v => countOcc l v == (l.dedup.map (countOcc l)).foldl Nat.max 0) :=
    (mem_sortLe p _).1 (hpt ▸ List.mem_cons_self p t)
  have hpmx : countOcc l p = (l.dedup.map (countOcc l)).foldl Nat.max 0 := by
    have := (List.mem_filter.1 hp).2
    simpa using this
  refine ⟨p, t, hms ▸ hpt, ?_, ?_, ?_⟩
  · exact List.mem_dedup.1 (List.mem_filter.1 hp).1
  · intro v hv
    have hvu : v ∈ l.dedup := List.mem_dedup.2 hv
    have h1 : countOcc l v ≤ (l.dedup.map (countOcc l)).foldl Nat.max 0 :=
      le_foldl_max _ _ _ (List.mem_map_of_mem _ hvu)
    omega
  · intro v hv hcv
    have hvc : v ∈ l.dedup.filter
        (fun v => countOcc l v == (l.dedup.map (countOcc l)).foldl Nat.max 0) :=
      List.mem_filter.2 ⟨List.mem_dedup.2 hv, by simp [hcv, hpmx]⟩
    have hvs := (mem_sortLe v _).2 hvc
    exact chain'_head_min _ (chain'_sortLe _) p (by rw [hpt]; rfl) v hvs

/-- C5 counterexample: on descriptions ["B", "A"] (a tie), the claim
says the reported most-popular value is the first-encountered "B", but
`Series.mode()` returns the tied values in sorted order and `[0]` picks
"A". -/
theorem order_summary_tie_not_first_encounter :
    (order_summary c5state).2.2 = "A" ∧
    firstEncounterMode (c5state.orders.map (·.orderDesc)) = some "B" ∧
    ("A" : String) ≠ "B" := by
  refine ⟨rfl, rfl, by decide⟩

/-- C5 amended: `summary()` reports totalOrders = record count,
totalQuantity = sum of the Quantity column, and as most popular
description a value of maximal frequency among the descriptions — with
ties broken in favour of the lexicographically (code-point) smallest
tied value, `mode()` returning its result sorted ascending — and
(0, 0, "None") on an empty table. -/
theorem order_summary_spec (s : State) :
    (order_summary s).1 = s.orders.length ∧
    (order_summary s).2.1 = (s.orders.map (·.quantity)).sum ∧
    (s.orders = [] → (order_summary s).2.2 = "None") ∧
    (s.orders ≠ [] →
      (order_summary s).2.2 ∈ s.orders.map (·.orderDesc) ∧
      (∀ v ∈ s.orders.map (·.orderDesc),
        countOcc (s.orders.map (·.orderDesc)) v
          ≤ countOcc (s.orders.map (·.orderDesc)) ((order_summary s).2.2)) ∧
      (∀ v ∈ s.orders.map (·.orderDesc),
        countOcc (s.orders.map (·.orderDesc)) v
            = countOcc (s.orders.map (·.orderDesc)) ((order_summary s).2.2) →
        strLe ((order_summary s).2.2) v = true)) := by
  refine ⟨rfl, List.sum_eq_foldl.symm, ?_, ?_⟩
  · intro h
    simp [order_summary, h]
  · intro h
    have hlen : 0 < s.orders.length := List.length_pos.2 h
    have hdne : s.orders.map (·.orderDesc) ≠ [] := by
      simpa using h
    obtain ⟨p, t, hpt, hmem, hmax, hmin⟩ := modeSorted_spec _ hdne
    have hpop : (order_summary s).2.2 = p := by
      simp only [order_summary, if_pos hlen, hpt, List.headD_cons]
    rw [hpop]
    exact ⟨hmem, hmax, hmin⟩

/-- Witness for C5 amended at the counterexample store: the reported
most-popular description "A" is a most frequent value and `strLe`-below
the tied "B". -/
theorem order_summary_spec_witness :
    (order_summary c5state).2.2 ∈ c5state.orders.map (·.orderDesc) ∧
    strLe ((order_summary c5state).2.2) "B" = true :=
  ⟨((order_summary_spec c5state).2.2.2 (by decide)).1, by decide⟩

/-! ### C6: filter_orders -/

/-- C6 counterexample: `str.contains` defaults to `regex=True`, so the
pattern is a regular expression, not a literal substring: filtering by
"x.z" returns the record named "xyz" although "x.z" is not a substring
of "xyz" — the filter does not return exactly the substring matches. -/
theorem filter_orders_regex_not_substring :
    filter_orders c6state (some "x.z") none none = c6state.orders ∧
    specFilter c6state.orders (some "x.z") none none = [] ∧
    c6state.orders ≠ [] := by
  refine ⟨rfl, rfl, by decide⟩

theorem tokMatch_lit (l cs : List Char) :
    tokMatch (l.map RTok.lit) cs
      = (l.map Char.toLower).isPrefixOf (cs.map Char.toLower) := by
  induction l generalizing cs with
  | nil => cases cs <;> rfl
  | cons c l' ih =>
      cases cs with
      | nil => rfl
      | cons d cs' =>
          simp only [List.map_cons, tokMatch, tokCharOk, List.isPrefixOf, ih]

theorem rsearch_lit (l cs : List Char) :
    rsearch (l.map RTok.lit) cs
      = (cs.map Char.toLower).tails.any
          (fun t => (l.map Char.toLower).isPrefixOf t) := by
  induction cs with
  | nil =>
      show tokMatch (l.map RTok.lit) []
        = ([[]] : List (List Char)).any fun t => (l.map Char.toLower).isPrefixOf t
      rw [tokMatch_lit]
      simp
  | cons c cs' ih =>
      simp only [rsearch, tokMatch_lit, List.map_cons, List.tails_cons,
                 List.any_cons, ih]

/-- For a pattern with no `re` metacharacters, the regex search the code
performs is exactly case-insensitive substring containment. -/
theorem rsearch_eq_substrCI (p : String) (hnm : noMeta p = true) (s : String) :
    rsearch (parsePat p) s.toList = substrCI p s := by
  have hdot : parsePat p = p.toList.map RTok.lit := by
    unfold parsePat
    apply List.map_congr_left
    intro c hc
    have hmem := (List.all_eq_true.1 hnm) c hc
    have hne : (c == '.') = false := by
      cases h : c == '.'
      · rfl
      · have hcdot : c = '.' := by simpa using h
        subst hcdot
        simp [reMeta] at hmem
    simp [hne]
  rw [hdot, rsearch_lit]
  rfl

/-- Composing three filters equals one filter by the conjunction. -/
theorem filter_and_comp (l : List Order) (f g h : Order → Bool) :
    ((l.filter f).filter g).filter h
      = l.filter (fun o => f o && g o && h o) := by
  induction l with
  | nil => rfl
  | cons o l ih =>
      cases hf : f o <;> cases hg : g o <;> cases hh : h o <;>
        simp [List.filter_cons, hf, hg, hh, ih, Bool.and_comm, Bool.and_assoc,
              Bool.and_left_comm]

/-- The empty pattern is a substring of everything. -/
theorem substrCI_empty (s : String) : substrCI "" s = true := by
  unfold substrCI
  cases h : s.toList.map Char.toLower with
  | nil => rfl
  | cons c cs => simp [List.tails_cons, List.isPrefixOf]

/-- `filter_orders` written as three composed filters with explicit
always-true predicates for the skipped (absent or blank) arguments. -/
theorem filter_orders_as_filters (s : State)
    (cn sd ed : Option String) :
    filter_orders s cn sd ed =
      ((s.orders.filter (fun o =>
          match cn with
          | none => true
          | some p => if p.isEmpty then true
                      else rsearch (parsePat p) o.customerName.toList)).filter
        (fun o =>
          match sd with
          | none => true
          | some d => if d.isEmpty then true
                      else lexLe d.toList o.orderDate.toList)).filter
        (fun o =>
          match ed with
          | none => true
          | some d => if d.isEmpty then true
                      else lexLe o.orderDate.toList d.toList) := by
  rcases cn with _ | p <;> rcases sd with _ | sd <;> rcases ed with _ | ed <;>
    simp only [filter_orders] <;>
    [skip; by_cases hed : ed.isEmpty; by_cases hsd : sd.isEmpty;
     (by_cases hsd : sd.isEmpty <;> by_cases hed : ed.isEmpty);
     by_cases hp : p.isEmpty;
     (by_cases hp : p.isEmpty <;> by_cases hed : ed.isEmpty);
     (by_cases hp : p.isEmpty <;> by_cases hsd : sd.isEmpty);
     (by_cases hp : p.isEmpty <;> by_cases hsd : sd.isEmpty <;>
        by_cases hed : ed.isEmpty)] <;>
    simp_all [List.filter_true]

/-- C6 amended: for every table and combination of provided arguments,
`filter_orders` returns exactly the records satisfying the conjunction
of the provided criteria, the customer-name criterion being a
case-insensitive *regular-expression* search — which coincides with
case-insensitive substring containment whenever the pattern contains no
`re` metacharacter (the hypothesis below); date bounds are inclusive
lexicographic comparisons of the date strings; an empty result is the
empty sequence, not an error.  (A blank end date is excluded: the code
treats blank arguments as absent.) -/
theorem filter_orders_spec (s : State)
    (customer_name start_date end_date : Option String)
    (hp : ∀ p, customer_name = some p → noMeta p = true)
    (hed : ∀ d, end_date = some d → d ≠ "") :
    filter_orders s customer_name start_date end_date
      = specFilter s.orders customer_name start_date end_date := by
  have hpfact : customer_name = none
      ∨ ∃ p, customer_name = some p ∧ noMeta p = true := by
    rcases customer_name with _ | p
    · exact Or.inl rfl
    · exact Or.inr ⟨p, rfl, hp p rfl⟩
  have hedfact : end_date = none ∨ ∃ d, end_date = some d ∧ d ≠ "" := by
    rcases end_date with _ | d
    · exact Or.inl rfl
    · exact Or.inr ⟨d, rfl, hed d rfl⟩
  clear hp hed
  rw [filter_orders_as_filters, filter_and_comp]
  unfold specFilter
  apply List.filter_congr
  intro o _
  have hname : (match customer_name with
      | none => true
      | some p => if p.isEmpty then true
                  else rsearch (parsePat p) o.customerName.toList)
      = (match customer_name with
         | none => true
         | some p => substrCI p o.customerName) := by
    rcases hpfact with rfl | ⟨p, rfl, hnm⟩
    · rfl
    · show (if p.isEmpty = true then true
            else rsearch (parsePat p) o.customerName.toList)
          = substrCI p o.customerName
      by_cases hpe : p.isEmpty
      · have hp0 : p = "" := (String.isEmpty_iff p).mp hpe
        subst hp0
        rw [if_pos hpe, substrCI_empty]
      · rw [if_neg hpe]
        exact rsearch_eq_substrCI p hnm o.customerName
  have hsd : (match start_date with
      | none => true
      | some d => if d.isEmpty then true
                  else lexLe d.toList o.orderDate.toList)
      = (match start_date with
         | none => true
         | some d => strLe d o.orderDate) := by
    rcases start_date with _ | d
    · rfl
    · show (if d.isEmpty = true then true else lexLe d.toList o.orderDate.toList)
          = strLe d o.orderDate
      by_cases hde : d.isEmpty
      · have hd0 : d = "" := (String.isEmpty_iff d).mp hde
        subst hd0
        rw [if_pos hde]
        rfl
      · rw [if_neg hde]
        rfl
  have hedq : (match end_date with
      | none => true
      | some d => if d.isEmpty then true
                  else lexLe o.orderDate.toList d.toList)
      = (match end_date with
         | none => true
         | some d => strLe o.orderDate d) := by
    rcases hedfact with rfl | ⟨d, rfl, hdne⟩
    · rfl
    · show (if d.isEmpty = true then true else lexLe o.orderDate.toList d.toList)
          = strLe o.orderDate d
      have hne : ¬(d.isEmpty = true) := by
        intro hie
        exact absurd ((String.isEmpty_iff d).mp hie) hdne
      rw [if_neg hne]
      rfl
  rw [hname, hsd, hedq]
  rcases hpfact with rfl | ⟨p, rfl, hx⟩ <;>
    rcases hedfact with rfl | ⟨d, rfl, hy⟩ <;>
    rcases start_date with _ | sd <;> rfl

/-- Witness for C6 amended at the spec's example: filtering by the
metacharacter-free pattern "ali" returns exactly the substring matches. -/
theorem filter_orders_spec_witness :
    filter_orders c6wstate (some "ali") none none
      = specFilter c6wstate.orders (some "ali") none none ∧
    (filter_orders c6wstate (some "ali") none none).map (·.customerName)
      = ["Alice", "Natalia"] := by
  refine ⟨filter_orders_spec c6wstate (some "ali") none none
    (fun p hp => by cases hp; decide) (fun d hd => by cases hd), ?_⟩
  decide

/-! ### C8: backup / delete everything / restore -/

theorem delete_order_backup (s : State) (id : Nat) :
    (delete_order s id).1.backup = s.backup := by
  unfold delete_order
  split <;> rfl

theorem delete_order_orders (s : State) (id : Nat) :
    (delete_order s id).1.orders
      = s.orders.filter (fun o => !pyEq o.orderId (.num id)) := by
  unfold delete_order
  split
  · rfl
  · next h =>
      refine (List.filter_eq_self.mpr ?_).symm
      intro o ho
      cases hpe : pyEq o.orderId (.num id)
      · rfl
      · exact absurd (List.any_eq_true.mpr ⟨o, ho, hpe⟩) h

theorem foldl_delete_backup (L : List Nat) (s : State) :
    (L.foldl (fun st id => (delete_order st id).1) s).backup = s.backup := by
  induction L generalizing s with
  | nil => rfl
  | cons a L ih => rw [List.foldl_cons, ih, delete_order_backup]

theorem filter_filter_own (l : List Order) (f g : Order → Bool) :
    (l.filter f).filter g = l.filter (fun o => f o && g o) := by
  induction l with
  | nil => rfl
  | cons o l ih =>
      cases hf : f o <;> cases hg : g o <;> simp [List.filter_cons, hf, hg, ih]

theorem foldl_delete_orders (L : List Nat) (s : State) :
    (L.foldl (fun st id => (delete_order st id).1) s).orders
      = s.orders.filter
          (fun o => !(L.any (fun id => pyEq o.orderId (.num id)))) := by
  induction L generalizing s with
  | nil => simp
  | cons a L ih =>
      rw [List.foldl_cons, ih, delete_order_orders, filter_filter_own]
      apply List.filter_congr
      intro o _
      simp [List.any_cons, Bool.not_or, Bool.and_comm]

theorem deleteAll_orders_nil (s : State) (hids : (idsOf s).all isNum = true) :
    (deleteAll s).orders = [] := by
  unfold deleteAll
  rw [foldl_delete_orders]
  apply List.filter_eq_nil_iff.mpr
  intro o ho
  have hnum := List.all_eq_true.1 hids _ (List.mem_map_of_mem _ ho)
  intro hcontra
  cases hcid : o.orderId with
  | nan => rw [hcid] at hnum; cases hnum
  | num n =>
      have hn : n ∈ idNats s.orders :=
        List.mem_filterMap.2 ⟨o, ho, by rw [hcid]⟩
      have hany : (idNats s.orders).any
          (fun id => pyEq o.orderId (.num id)) = true :=
        List.any_eq_true.mpr ⟨n, hn, by rw [hcid]; simp [pyEq]⟩
      rw [hany] at hcontra
      cases hcontra

theorem pyMax_num (l : List PyNum) (hne : l ≠ []) (hall : l.all isNum = true) :
    ∃ mx, pyMax l = .num mx := by
  unfold pyMax
  cases h : numsOf l with
  | cons x xs => exact ⟨_, rfl⟩
  | nil =>
      exfalso
      obtain ⟨v, hv⟩ := List.exists_mem_of_ne_nil l hne
      have hnum := List.all_eq_true.1 hall v hv
      cases hc : v with
      | nan => rw [hc] at hnum; cases hnum
      | num n =>
          have hmem : n ∈ numsOf l := List.mem_filterMap.2 ⟨v, hv, by rw [hc]⟩
          rw [h] at hmem
          cases hmem

/-- C8: for every non-empty table (with integer ids), backing up, then
deleting every record, then restoring yields an in-memory table equal to
the pre-delete table record for record and in order, rewrites it to the
primary file, and sets the counter to max(restored ids) + 1; the
intermediate table really is empty. -/
theorem backup_deleteAll_restore (s : State) (hne : s.orders ≠ [])
    (hids : (idsOf s).all isNum = true) :
    (deleteAll (backup_orders s)).orders = [] ∧
    (restore_orders (deleteAll (backup_orders s))).1.orders = s.orders ∧
    (restore_orders (deleteAll (backup_orders s))).1.file = some s.orders ∧
    ∃ mx, pyMax (idsOf s) = .num mx ∧
      (restore_orders (deleteAll (backup_orders s))).1.next_order_id
        = .num (mx + 1) := by
  have hback : (deleteAll (backup_orders s)).backup = some s.orders := by
    unfold deleteAll
    rw [foldl_delete_backup]
    rfl
  have hempty : (deleteAll (backup_orders s)).orders = [] :=
    deleteAll_orders_nil (backup_orders s) hids
  refine ⟨hempty, ?_, ?_, ?_⟩
  · simp [restore_orders, hback]
  · simp [restore_orders, hback]
  · obtain ⟨mx, hmx⟩ := pyMax_num (idsOf s)
      (by unfold idsOf; simpa using hne) hids
    refine ⟨mx, hmx, ?_⟩
    simp only [restore_orders, hback]
    have : (s.orders.map (·.orderId)) = idsOf s := rfl
    rw [this, hmx]
    rfl

/-- Witness for C8 on a one-record store built by `add_order`. -/
theorem backup_deleteAll_restore_witness :
    (restore_orders (deleteAll (backup_orders
        (add_order (initStore none none) "A" "Bread" "2" "2024-03-04").1))).1.orders
      = (add_order (initStore none none) "A" "Bread" "2" "2024-03-04").1.orders ∧
    ∃ mx,
      pyMax (idsOf (add_order (initStore none none) "A" "Bread" "2"
        "2024-03-04").1) = .num mx ∧
      (restore_orders (deleteAll (backup_orders
          (add_order (initStore none none) "A" "Bread" "2"
            "2024-03-04").1))).1.next_order_id = .num (mx + 1) :=
  ⟨(backup_deleteAll_restore _ (by decide) (by decide)).2.1,
   (backup_deleteAll_restore _ (by decide) (by decide)).2.2.2⟩

/-! ### Step preservation lemmas for the CRUD operation sequences -/

theorem update_order_next (s : State) (order_id : Nat)
    (name order quantity order_date : Option String) :
    (update_order s order_id name order quantity order_date).1.next_order_id
      = s.next_order_id := by
  unfold update_order
  cases s.orders.findIdx? (fun o => pyEq o.orderId (.num order_id)) with
  | none => rfl
  | some i =>
      by_cases hq : (provided quantity && !validate_quantity (getStr quantity)) = true
      · simp [hq]
      · rw [Bool.not_eq_true] at hq
        by_cases hd : (provided order_date && !validate_date (getStr order_date)) = true
        · simp [hq, hd]
        · rw [Bool.not_eq_true] at hd
          simp [hq, hd]

theorem delete_order_next (s : State) (order_id : Nat) :
    (delete_order s order_id).1.next_order_id = s.next_order_id := by
  unfold delete_order
  split <;> rfl

theorem modifyIdx_map_orderId (l : List Order) (i : Nat) (f : Order → Order)
    (hf : ∀ x, (f x).orderId = x.orderId) :
    (modifyIdx l i f).map (·.orderId) = l.map (·.orderId) := by
  induction l generalizing i with
  | nil => rfl
  | cons x xs ih =>
      cases i with
      | zero => simp [modifyIdx, hf]
      | succ j => simp [modifyIdx, ih]

theorem nameDescApplied_ids (l : List Order) (i : Nat)
    (name order : Option String) :
    (nameDescApplied l i name order).map (·.orderId) = l.map (·.orderId) := by
  unfold nameDescApplied
  by_cases h1 : provided name = true <;> by_cases h2 : provided order = true <;>
    simp [h1, h2, modifyIdx_map_orderId]

theorem qtyApplied_ids (l : List Order) (i : Nat) (quantity : Option String) :
    (qtyApplied l i quantity).map (·.orderId) = l.map (·.orderId) := by
  unfold qtyApplied
  by_cases h : provided quantity = true <;> simp [h, modifyIdx_map_orderId]

theorem dateApplied_ids (l : List Order) (i : Nat) (order_date : Option String) :
    (dateApplied l i order_date).map (·.orderId) = l.map (·.orderId) := by
  unfold dateApplied
  by_cases h : provided order_date = true <;> simp [h, modifyIdx_map_orderId]

theorem update_order_ids (s : State) (order_id : Nat)
    (name order quantity order_date : Option String) :
    idsOf (update_order s order_id name order quantity order_date).1
      = idsOf s := by
  unfold idsOf update_order
  cases s.orders.findIdx? (fun o => pyEq o.orderId (.num order_id)) with
  | none => rfl
  | some i =>
      by_cases hq : (provided quantity && !validate_quantity (getStr quantity)) = true
      · simp [hq, nameDescApplied_ids]
      · rw [Bool.not_eq_true] at hq
        by_cases hd : (provided order_date && !validate_date (getStr order_date)) = true
        · simp [hq, hd, qtyApplied_ids, nameDescApplied_ids]
        · rw [Bool.not_eq_true] at hd
          simp [hq, hd, dateApplied_ids, qtyApplied_ids, nameDescApplied_ids]

theorem step_nextVal_mono (s : State) (op : Op) :
    nextVal s ≤ nextVal (step s op) := by
  cases op with
  | addOp n o q d =>
      by_cases hq : validate_quantity q = true
      · by_cases hd : validate_date d = true
        · show nextVal s ≤ nextVal (add_order s n o q d).1
          simp only [add_order, hq, hd, Bool.not_true, Bool.false_eq_true,
                     if_false]
          unfold nextVal
          cases s.next_order_id <;> simp [pyAdd1]
        · show nextVal s ≤ nextVal (add_order s n o q d).1
          simp [add_order, hq, hd]
      · show nextVal s ≤ nextVal (add_order s n o q d).1
        simp [add_order, hq]
  | updateOp i n o q d =>
      show nextVal s ≤ nextVal (update_order s i n o q d).1
      unfold nextVal
      rw [update_order_next]
  | deleteOp i =>
      show nextVal s ≤ nextVal (delete_order s i).1
      unfold nextVal
      rw [delete_order_next]

theorem goodIds_mono (n m : Nat) (h : n ≤ m) (l : List PyNum)
    (hg : goodIds n l = true) : goodIds m l = true := by
  unfold goodIds at hg ⊢
  rw [List.all_eq_true] at hg ⊢
  intro v hv
  have hx := hg v hv
  cases v with
  | num k =>
      simp only [decide_eq_true_eq] at hx ⊢
      omega
  | nan => simp at hx

theorem goodIds_filter (n : Nat) (l : List Order) (f : Order → Bool)
    (h : goodIds n (l.map (·.orderId)) = true) :
    goodIds n ((l.filter f).map (·.orderId)) = true := by
  unfold goodIds at h ⊢
  rw [List.all_eq_true] at h ⊢
  intro v hv
  obtain ⟨o, ho, rfl⟩ := List.mem_map.1 hv
  exact h _ (List.mem_map_of_mem _ (List.mem_filter.1 ho).1)

theorem step_inv (s : State) (op : Op) (h : storeInvB s = true) :
    storeInvB (step s op) = true := by
  cases op with
  | addOp n o q d =>
      show storeInvB (add_order s n o q d).1 = true
      by_cases hq : validate_quantity q = true
      · by_cases hd : validate_date d = true
        · cases hn : s.next_order_id with
          | nan =>
              unfold storeInvB at h
              rw [hn] at h
              cases h
          | num m =>
              unfold storeInvB at h
              rw [hn] at h
              simp only [add_order, hq, hd, Bool.not_true, Bool.false_eq_true,
                         if_false]
              unfold storeInvB idsOf
              simp only [hn, pyAdd1, List.map_append]
              unfold goodIds at h ⊢
              rw [List.all_eq_true] at h ⊢
              intro v hv
              rcases List.mem_append.1 hv with hv | hv
              · have hx := h v hv
                cases v with
                | num k =>
                    simp only [decide_eq_true_eq] at hx ⊢
                    omega
                | nan => simp at hx
              · simp only [List.map_cons, List.map_nil, List.mem_singleton] at hv
                subst hv
                simp
        · simpa [step, add_order, hq, hd] using h
      · simpa [step, add_order, hq] using h
  | updateOp i n o q d =>
      show storeInvB (update_order s i n o q d).1 = true
      unfold storeInvB
      rw [update_order_next, update_order_ids]
      unfold storeInvB at h
      exact h
  | deleteOp i =>
      show storeInvB (delete_order s i).1 = true
      unfold storeInvB
      rw [delete_order_next]
      unfold storeInvB at h
      cases hn : s.next_order_id with
      | nan => rw [hn] at h; cases h
      | num m =>
          rw [hn] at h
          unfold idsOf
          rw [delete_order_orders]
          exact goodIds_filter m s.orders _ h

/-! ### Event lemmas -/

theorem assigned_eventsOf (s : State) (op : Op) (v : PyNum)
    (hv : Event.assigned v ∈ eventsOf s op) : v = s.next_order_id := by
  cases op with
  | addOp n o q d =>
      unfold eventsOf at hv
      by_cases hq : validate_quantity q = true
      · by_cases hd : validate_date d = true
        · simp only [add_order, hq, hd, Bool.not_true, Bool.false_eq_true,
                     if_false, List.mem_singleton] at hv
          injection hv
        · simp [add_order, hq, hd] at hv
      · simp [add_order, hq] at hv
  | updateOp i n o q d => simp [eventsOf] at hv
  | deleteOp i =>
      unfold eventsOf at hv
      obtain ⟨o, _, heq⟩ := List.mem_map.1 hv
      cases heq

theorem removed_eventsOf (s : State) (op : Op) (v : PyNum)
    (hv : Event.removed v ∈ eventsOf s op) :
    ∃ o ∈ s.orders, o.orderId = v := by
  cases op with
  | addOp n o q d =>
      unfold eventsOf at hv
      by_cases hq : validate_quantity q = true
      · by_cases hd : validate_date d = true
        · simp only [add_order, hq, hd, Bool.not_true, Bool.false_eq_true,
                     if_false, List.mem_singleton] at hv
          cases hv
        · simp [add_order, hq, hd] at hv
      · simp [add_order, hq] at hv
  | updateOp i n o q d => simp [eventsOf] at hv
  | deleteOp i =>
      unfold eventsOf at hv
      obtain ⟨o, ho, heq⟩ := List.mem_map.1 hv
      injection heq with heq
      exact ⟨o, (List.mem_filter.1 ho).1, heq⟩

theorem eventsOf_no_both (s : State) (op : Op) (v u : PyNum)
    (hr : Event.removed v ∈ eventsOf s op) :
    Event.assigned u ∉ eventsOf s op := by
  intro ha
  cases op with
  | addOp n o q d =>
      unfold eventsOf at hr
      by_cases hq : validate_quantity q = true
      · by_cases hd : validate_date d = true
        · simp only [add_order, hq, hd, Bool.not_true, Bool.false_eq_true,
                     if_false, List.mem_singleton] at hr
          cases hr
        · simp [add_order, hq, hd] at hr
      · simp [add_order, hq] at hr
  | updateOp i n o q d => simp [eventsOf] at hr
  | deleteOp i =>
      unfold eventsOf at ha
      obtain ⟨o, _, heq⟩ := List.mem_map.1 ha
      cases heq

theorem nextVal_num (s : State) (h : storeInvB s = true) :
    s.next_order_id = .num (nextVal s) := by
  unfold storeInvB at h
  unfold nextVal
  cases hn : s.next_order_id with
  | num m => rfl
  | nan => rw [hn] at h; cases h

theorem assigned_future (s : State) (ops : List Op) (h : storeInvB s = true)
    (v : PyNum) (hv : Event.assigned v ∈ events s ops) :
    ∃ m, v = .num m ∧ nextVal s ≤ m := by
  induction ops generalizing s with
  | nil => cases hv
  | cons op ops ih =>
      rw [events] at hv
      rcases List.mem_append.1 hv with hv | hv
      · have hveq := assigned_eventsOf s op v hv
        refine ⟨nextVal s, ?_, Nat.le_refl _⟩
        rw [hveq]
        exact nextVal_num s h
      · obtain ⟨m, hm, hle⟩ := ih (step s op) (step_inv s op h) hv
        exact ⟨m, hm, Nat.le_trans (step_nextVal_mono s op) hle⟩

theorem removed_lt (s : State) (op : Op) (h : storeInvB s = true)
    (v : PyNum) (hv : Event.removed v ∈ eventsOf s op) :
    ∃ m, v = .num m ∧ m < nextVal s := by
  obtain ⟨o, ho, hid⟩ := removed_eventsOf s op v hv
  unfold storeInvB at h
  cases hn : s.next_order_id with
  | nan => rw [hn] at h; cases h
  | num n =>
      rw [hn] at h
      unfold goodIds at h
      have hx := List.all_eq_true.1 h o.orderId
        (List.mem_map_of_mem _ ho)
      cases hc : o.orderId with
      | nan => rw [hc] at hx; cases hx
      | num m =>
          rw [hc] at hx
          simp only [decide_eq_true_eq] at hx
          refine ⟨m, by rw [← hid, hc], ?_⟩
          unfold nextVal
          rw [hn]
          exact hx

/-- C3 counterexample: id 2 is assigned, deleted (persisting the file),
and after re-initializing from the persisted file the next add returns
id 2 again — `__init__` recomputes the counter as max(ids)+1, reclaiming
the deleted largest id, so the claim's "including ... re-initializing
the store from the persisted file" case is false. -/
theorem reload_reassigns_deleted_id :
    (add_order (add_order (initStore none none) "A" "a" "1" "2024-01-01").1
        "B" "b" "1" "2024-01-02").2 = .ok (.num 2) ∧
    (delete_order c3two 2).2 = .ok () ∧
    (add_order c3reloaded "C" "c" "1" "2024-01-03").2 = .ok (.num 2) := by
  refine ⟨rfl, rfl, rfl⟩

/-- C3 amended: within a single store session, over any sequence of
add/update/delete operations from a state satisfying the store invariant
(integer counter strictly above every table id), an OrderID that has
been removed by a delete is never assigned by a later add: in the event
trace, no `assigned v` follows a `removed v`.  (Re-initializing from the
persisted file after deleting the record with the largest OrderID can
reassign it, as the counterexample shows, and restore can likewise lower
the counter.) -/
theorem assigned_never_after_removed (s : State) (hinv : storeInvB s = true)
    (ops : List Op) (v : PyNum) (pre rest : List Event)
    (hsplit : events s ops = pre ++ Event.removed v :: rest) :
    Event.assigned v ∉ rest := by
  induction ops generalizing s pre with
  | nil =>
      exfalso
      have : ([] : List Event) = pre ++ Event.removed v :: rest := hsplit
      exact List.not_mem_nil _ (this ▸ List.mem_append_right pre
        (List.mem_cons_self _ _))
  | cons op ops ih =>
      rw [events] at hsplit
      rcases List.append_eq_append_iff.1 hsplit with ⟨a', h1, h2⟩ | ⟨c', h1, h2⟩
      · exact ih (step s op) (step_inv s op hinv) a' h2
      · cases c' with
        | nil =>
            rw [List.nil_append] at h2
            exact ih (step s op) (step_inv s op hinv) [] h2.symm
        | cons e c'' =>
            rw [List.cons_append] at h2
            injection h2 with he hrest
            subst he
            intro hmem
            have hrem : Event.removed v ∈ eventsOf s op := by
              rw [h1]
              exact List.mem_append_right pre (List.mem_cons_self _ _)
            rw [hrest] at hmem
            rcases List.mem_append.1 hmem with hmem | hmem
            · have : Event.assigned v ∈ eventsOf s op := by
                rw [h1]
                apply List.mem_append_right pre
                exact List.mem_cons_of_mem _ hmem
              exact eventsOf_no_both s op v v hrem this
            · obtain ⟨m, hm, hle⟩ :=
                assigned_future (step s op) ops (step_inv s op hinv) v hmem
              obtain ⟨m', hm', hlt⟩ := removed_lt s op hinv v hrem
              rw [hm] at hm'
              injection hm' with hmm
              have hmono := step_nextVal_mono s op
              omega

/-- Witness for C3 amended: on the trace add(id 1), delete 1, add(id 2),
the event assigned-1 precedes removed-1, and assigned-1 does not occur
after removed-1. -/
theorem assigned_never_after_removed_witness :
    Event.assigned (PyNum.num 1) ∉ [Event.assigned (PyNum.num 2)] :=
  assigned_never_after_removed (initStore none none) (by decide)
    [Op.addOp "A" "a" "1" "2024-01-01", Op.deleteOp 1,
     Op.addOp "B" "b" "1" "2024-01-02"]
    (PyNum.num 1) [Event.assigned (PyNum.num 1)]
    [Event.assigned (PyNum.num 2)] (by decide)

/-! ### C9: delete and lookup -/

theorem pyEq_num_iff (x : PyNum) (k : Nat) :
    pyEq x (.num k) = true ↔ x = .num k := by
  cases x with
  | num m => simp [pyEq]
  | nan => simp [pyEq]

theorem notin_run (s : State) (id : Nat) (ops : List Op)
    (h : storeInvB s = true) (hni : PyNum.num id ∉ idsOf s)
    (hlt : id < nextVal s) :
    PyNum.num id ∉ idsOf (run s ops) := by
  induction ops generalizing s with
  | nil => exact hni
  | cons op ops ih =>
      show PyNum.num id ∉ idsOf (run (step s op) ops)
      refine ih (step s op) (step_inv s op h) ?_
        (Nat.lt_of_lt_of_le hlt (step_nextVal_mono s op))
      cases op with
      | updateOp i n o q d =>
          show PyNum.num id ∉ idsOf (update_order s i n o q d).1
          rw [update_order_ids]
          exact hni
      | deleteOp i =>
          show PyNum.num id ∉ idsOf (delete_order s i).1
          unfold idsOf
          rw [delete_order_orders]
          intro hmem
          obtain ⟨o, ho, hid⟩ := List.mem_map.1 hmem
          exact hni (List.mem_map.2 ⟨o, (List.mem_filter.1 ho).1, hid⟩)
      | addOp n o q d =>
          show PyNum.num id ∉ idsOf (add_order s n o q d).1
          by_cases hq : validate_quantity q = true
          · by_cases hd : validate_date d = true
            · simp only [add_order, hq, hd, Bool.not_true, Bool.false_eq_true,
                         if_false]
              unfold idsOf
              simp only [List.map_append]
              intro hmem
              rcases List.mem_append.1 hmem with hmem | hmem
              · exact hni hmem
              · simp only [List.map_cons, List.map_nil,
                           List.mem_singleton] at hmem
                rw [nextVal_num s h] at hmem
                injection hmem with hh
                omega
            · simpa [add_order, hq, hd] using hni
          · simpa [add_order, hq] using hni

theorem lookup_empty_of_notin (s : State) (id : Nat)
    (h : PyNum.num id ∉ idsOf s) : lookup_order s id = [] := by
  unfold lookup_order
  apply List.filter_eq_nil_iff.mpr
  intro o ho hc
  exact h (List.mem_map.2 ⟨o, ho, (pyEq_num_iff _ _).1 hc⟩)

theorem delete_present_length (l : List Order) (k : Nat)
    (hnd : (l.map (·.orderId)).Nodup)
    (hpres : l.any (fun o => pyEq o.orderId (.num k)) = true) :
    (l.filter (fun o => !pyEq o.orderId (.num k))).length + 1 = l.length := by
  induction l with
  | nil => simp at hpres
  | cons o l ih =>
      rw [List.map_cons, List.nodup_cons] at hnd
      obtain ⟨hno, hnd'⟩ := hnd
      cases hpe : pyEq o.orderId (.num k) with
      | true =>
          have hoid : o.orderId = .num k := (pyEq_num_iff _ _).1 hpe
          rw [List.filter_cons]
          simp only [hpe, Bool.not_true, Bool.false_eq_true, if_false]
          have hfl : l.filter (fun o => !pyEq o.orderId (.num k)) = l := by
            apply List.filter_eq_self.mpr
            intro x hx
            cases hpx : pyEq x.orderId (.num k) with
            | false => rfl
            | true =>
                have hxid : x.orderId = .num k := (pyEq_num_iff _ _).1 hpx
                exact absurd (hxid ▸ List.mem_map_of_mem _ hx)
                  (hoid ▸ hno)
          rw [hfl]
          rfl
      | false =>
          rw [List.filter_cons]
          simp only [hpe, Bool.not_false, if_true]
          have hany : l.any (fun o => pyEq o.orderId (.num k)) = true := by
            rw [List.any_cons, hpe] at hpres
            simpa using hpres
          have := ih hnd' hany
          simp only [List.length_cons]
          omega

/-- C9: from any state satisfying the store invariant with pairwise
distinct ids, deleting a present id succeeds, removes exactly that
record (size decreases by exactly one, the remaining rows are the
non-matching ones in order), and every subsequent lookup of that id over
any further add/update/delete sequence returns the empty (NotFound)
selection; deleting an absent id returns NotFound and leaves the whole
state unchanged. -/
theorem delete_order_spec (s : State) (order_id : Nat)
    (hinv : storeInvB s = true) (hnd : (idsOf s).Nodup) :
    (s.orders.any (fun o => pyEq o.orderId (.num order_id)) = true →
      (delete_order s order_id).2 = .ok () ∧
      (delete_order s order_id).1.orders
        = s.orders.filter (fun o => !pyEq o.orderId (.num order_id)) ∧
      (delete_order s order_id).1.orders.length + 1 = s.orders.length ∧
      (∀ ops : List Op,
        lookup_order (run (delete_order s order_id).1 ops) order_id = [])) ∧
    (s.orders.any (fun o => pyEq o.orderId (.num order_id)) = false →
      delete_order s order_id = (s, .err .notFound)) := by
  constructor
  · intro hpres
    refine ⟨?_, delete_order_orders s order_id, ?_, ?_⟩
    · simp [delete_order, hpres]
    · rw [delete_order_orders]
      exact delete_present_length s.orders order_id
        (by simpa [idsOf] using hnd) hpres
    · intro ops
      apply lookup_empty_of_notin
      have hinv' : storeInvB (delete_order s order_id).1 = true :=
        step_inv s (Op.deleteOp order_id) hinv
      have hni : PyNum.num order_id ∉ idsOf (delete_order s order_id).1 := by
        unfold idsOf
        rw [delete_order_orders]
        intro hmem
        obtain ⟨o, ho, hid⟩ := List.mem_map.1 hmem
        have hf := (List.mem_filter.1 ho).2
        rw [(pyEq_num_iff _ _).2 hid] at hf
        cases hf
      have hlt : order_id < nextVal (delete_order s order_id).1 := by
        obtain ⟨o, ho, hpe⟩ := List.any_eq_true.1 hpres
        have hoid := (pyEq_num_iff _ _).1 hpe
        unfold storeInvB at hinv
        cases hn : s.next_order_id with
        | nan => rw [hn] at hinv; cases hinv
        | num n =>
            rw [hn] at hinv
            have hx := List.all_eq_true.1 hinv o.orderId
              (List.mem_map_of_mem _ ho)
            rw [hoid] at hx
            simp only [decide_eq_true_eq] at hx
            unfold nextVal
            rw [delete_order_next, hn]
            exact hx
      exact notin_run _ _ ops hinv' hni hlt
  · intro habs
    unfold delete_order
    rw [if_neg (by rw [habs]; exact Bool.false_ne_true)]

/-- Witness for C9 at the one-record store: delete of the present id 1
succeeds and shrinks the table by one, its lookup afterwards is empty,
and delete of the absent id 99 is NotFound with the state unchanged. -/
theorem delete_order_spec_witness :
    (delete_order c2state 1).2 = .ok () ∧
    (delete_order c2state 1).1.orders.length + 1 = c2state.orders.length ∧
    lookup_order (run (delete_order c2state 1).1 []) 1 = [] ∧
    delete_order c2state 99 = (c2state, .err .notFound) := by
  have h := delete_order_spec c2state 1 (by decide) (by decide)
  have h99 := delete_order_spec c2state 99 (by decide) (by decide)
  exact ⟨(h.1 (by decide)).1, (h.1 (by decide)).2.2.1,
         (h.1 (by decide)).2.2.2 [], h99.2 (by decide)⟩

end Bakery
